import Mathlib

/-!
Verification of the knowledge-mcp document core: frontmatter codec,
chapter segmenter, chapter update, and keyword search.

Text is modelled as `List Char`; a document body is a raw character list,
lines are obtained by splitting on the newline character, mirroring
Python's `str.split("\n")`.
-/

namespace KnowledgeMCP

/-- Whitespace test used throughout (models Python's whitespace class). -/
def isWS (c : Char) : Bool := c.isWhitespace

/-- Python `str.strip()`: drop leading and trailing whitespace. -/
def pyStrip (l : List Char) : List Char :=
  ((l.dropWhile isWS).reverse.dropWhile isWS).reverse

/-- Python `content.split("\n")`: always at least one (possibly empty) line. -/
def splitLinesChar : List Char → List (List Char)
  | [] => [[]]
  | c :: rest =>
    if c = '\n' then [] :: splitLinesChar rest
    else
      let ls := splitLinesChar rest
      (c :: ls.headD []) :: ls.tail

/-- Python `"\n".join(lines)`. -/
def unlines : List (List Char) → List Char
  | [] => []
  | [l] => l
  | l :: l₂ :: ls => l ++ '\n' :: unlines (l₂ :: ls)

theorem splitLinesChar_ne_nil (s : List Char) : splitLinesChar s ≠ [] := by
  cases s with
  | nil => simp [splitLinesChar]
  | cons c rest =>
    simp only [splitLinesChar]
    split <;> simp

theorem unlines_splitLinesChar (s : List Char) : unlines (splitLinesChar s) = s := by
  induction s with
  | nil => simp [splitLinesChar, unlines]
  | cons c rest ih =>
    rcases hls : splitLinesChar rest with _ | ⟨l, ls⟩
    · exact absurd hls (splitLinesChar_ne_nil rest)
    · rw [hls] at ih
      simp only [splitLinesChar, hls]
      split
      · rename_i hc
        subst hc
        simpa [unlines] using ih
      · cases ls with
        | nil => simpa [unlines] using congrArg (c :: ·) ih
        | cons l₂ ls₂ =>
          simp only [List.headD, List.tail, unlines, List.cons_append] at *
          rw [ih]

theorem mem_splitLinesChar_no_newline (s : List Char) (l : List Char)
    (hl : l ∈ splitLinesChar s) : '\n' ∉ l := by
  induction s generalizing l with
  | nil =>
    simp only [splitLinesChar, List.mem_singleton] at hl
    simp [hl]
  | cons c rest ih =>
    rcases hls : splitLinesChar rest with _ | ⟨l₀, ls⟩
    · exact absurd hls (splitLinesChar_ne_nil rest)
    · simp only [splitLinesChar, hls] at hl
      split at hl
      · rw [List.mem_cons] at hl
        rcases hl with h | h
        · simp [h]
        · exact ih l (hls ▸ h)
      · rename_i hc
        simp only [List.headD, List.tail, List.mem_cons] at hl
        rcases hl with h₁ | h₁
        · subst h₁
          intro hmem
          rw [List.mem_cons] at hmem
          rcases hmem with h₂ | h₂
          · exact hc h₂.symm
          · exact ih l₀ (hls ▸ List.mem_cons_self l₀ ls) h₂
        · exact ih l (hls ▸ List.mem_cons_of_mem l₀ h₁)

theorem unlines_append (a b : List (List Char)) (ha : a ≠ []) (hb : b ≠ []) :
    unlines (a ++ b) = unlines a ++ '\n' :: unlines b := by
  induction a with
  | nil => exact absurd rfl ha
  | cons l ls ih =>
    cases ls with
    | nil =>
      cases b with
      | nil => exact absurd rfl hb
      | cons b₀ bs => simp [unlines]
    | cons l₂ ls₂ =>
      have ih' := ih (by simp)
      show l ++ '\n' :: unlines ((l₂ :: ls₂) ++ b) =
        (l ++ '\n' :: unlines (l₂ :: ls₂)) ++ '\n' :: unlines b
      rw [ih']
      simp

theorem splitLinesChar_no_newline (l : List Char) (hl : '\n' ∉ l) :
    splitLinesChar l = [l] := by
  induction l with
  | nil => rfl
  | cons c cs ih =>
    have hc : c ≠ '\n' := fun h => hl (by simp [h])
    have hcs : '\n' ∉ cs := fun h => hl (List.mem_cons_of_mem c h)
    rw [splitLinesChar, if_neg hc, ih hcs]
    simp

theorem splitLinesChar_append_newline (l s : List Char) (hl : '\n' ∉ l) :
    splitLinesChar (l ++ '\n' :: s) = l :: splitLinesChar s := by
  induction l with
  | nil => simp [splitLinesChar]
  | cons c cs ih =>
    have hc : c ≠ '\n' := fun h => hl (by simp [h])
    have hcs : '\n' ∉ cs := fun h => hl (List.mem_cons_of_mem c h)
    rw [List.cons_append, splitLinesChar, if_neg hc, ih hcs]
    simp

theorem splitLinesChar_unlines (ls : List (List Char)) (hne : ls ≠ [])
    (hnl : ∀ l ∈ ls, '\n' ∉ l) : splitLinesChar (unlines ls) = ls := by
  induction ls with
  | nil => exact absurd rfl hne
  | cons l rest ih =>
    cases rest with
    | nil => exact splitLinesChar_no_newline l (hnl l (by simp))
    | cons l₂ ls₂ =>
      show splitLinesChar (l ++ '\n' :: unlines (l₂ :: ls₂)) = l :: l₂ :: ls₂
      rw [splitLinesChar_append_newline l _ (hnl l (by simp)),
        ih (by simp) (fun x hx => hnl x (List.mem_cons_of_mem l hx))]

/-! ## Chapter segmenter (documents.py, `parse_chapters`) -/

/--
Models the regex test `re.match(r"^(#{2,4})\s+(.+)$", line)`: 2 to 4 leading
`#` markers (the run of `#` characters must have length 2 to 4), followed by
at least one whitespace character and at least one further character (the
regex backtracks, so a line of markers followed by two or more whitespace
characters also matches, with a whitespace-only title group).
Returns `(level, group(2).strip())` on a match, mirroring how the source
reads `len(header_match.group(1))` and `header_match.group(2).strip()`.
-/
def headerMatch (l : List Char) : Option (Nat × List Char) :=
  let n := (l.takeWhile (· = '#')).length
  let rest := l.drop n
  if 2 ≤ n ∧ n ≤ 4 ∧ 2 ≤ rest.length ∧ isWS (rest.headD ' ') = true
  then some (n, pyStrip (rest.dropWhile isWS)) else none

structure Chapter where
  title : List Char
  level : Nat
  summary : List Char
  content : List Char
  deriving DecidableEq, Repr

/-- Python `" ".join(parts)`. -/
def joinSpaces : List (List Char) → List Char
  | [] => []
  | [l] => l
  | l :: l₂ :: ls => l ++ ' ' :: joinSpaces (l₂ :: ls)

/--
The summary-extraction loop of `parse_chapters` (run twice in the source,
once when a new header closes a chapter and once for the final chapter;
both copies are identical): walk the content lines, breaking on a blank
line once something has been accumulated; append the stripped line
otherwise, then break early if the next line is blank, or if the
space-joined accumulation exceeds 100 characters.
-/
def summaryAux : List (List Char) → List (List Char) → List (List Char)
  | [], acc => acc
  | cl :: rest, acc =>
    if pyStrip cl = [] then
      if acc ≠ [] then acc else summaryAux rest acc
    else
      let acc' := acc ++ [pyStrip cl]
      if (match rest with | nxt :: _ => (pyStrip nxt).isEmpty | [] => false)
      then acc'
      else if 100 < (joinSpaces acc').length then acc'
      else summaryAux rest acc'

/-- `summary = " ".join(summary_lines)` over the chapter's content lines. -/
def summarize (contentLines : List (List Char)) : List Char :=
  joinSpaces (summaryAux contentLines [])

/--
Closing a chapter: the source stores `content = "\n".join(chapter_lines)`
where `chapter_lines = [header line] + later lines`, and the summary is
extracted from the lines after the header.
-/
def flushChapter (hline : List Char) (lv : Nat) (t : List Char)
    (acc : List (List Char)) : Chapter :=
  { title := t, level := lv, summary := summarize acc,
    content := unlines (hline :: acc) }

/--
The main loop of `parse_chapters` once a current chapter is open:
a header line closes the current chapter and opens a new one; any other
line is appended to the current chapter's lines.
-/
def chaptersLoop (hline : List Char) (lv : Nat) (t : List Char)
    (acc : List (List Char)) : List (List Char) → List Chapter
  | [] => [flushChapter hline lv t acc]
  | l :: ls =>
    match headerMatch l with
    | some (lv', t') => flushChapter hline lv t acc :: chaptersLoop l lv' t' [] ls
    | none => chaptersLoop hline lv t (acc ++ [l]) ls

/--
The phase of the loop before any header has been seen
(`current_chapter is None`): non-header lines are discarded.
-/
def chaptersStart : List (List Char) → List Chapter
  | [] => []
  | l :: ls =>
    match headerMatch l with
    | some (lv, t) => chaptersLoop l lv t [] ls
    | none => chaptersStart ls

/-- `parse_chapters` from documents.py. -/
def parseChapters (content : List Char) : List Chapter :=
  if pyStrip content = [] then []
  else chaptersStart (splitLinesChar content)

/-! ## Metadata values

The data model's metadata maps string keys to scalar or array values
(restricted serialization format: plain scalars and sequences only). -/

inductive YScalar where
  | s (v : List Char)
  | num (v : Nat)
  | b (v : Bool)
  | null
  deriving DecidableEq, Repr

inductive YValue where
  | scalar (v : YScalar)
  | seq (vs : List YScalar)
  deriving DecidableEq, Repr

/-- An ordered mapping of string keys to values (Python dict, insertion order). -/
abbrev Metadata := List ((List Char) × YValue)

/-- Python dict assignment `m[k] = v`: replace in place, or append if new. -/
def dictSet (m : Metadata) (k : List Char) (v : YValue) : Metadata :=
  if m.any (fun p => p.1 = k) then m.map (fun p => if p.1 = k then (k, v) else p)
  else m ++ [(k, v)]

/-- Python dict lookup. -/
def dictLookup (m : Metadata) (k : List Char) : Option YValue :=
  (m.find? (fun p => p.1 = k)).map (·.2)

/-! ## Substring search (Python `str.find` / `in`, used by search and update) -/

/-- Does `kw` occur in `t` starting at position `i`? -/
def occursAtPos (t kw : List Char) (i : Nat) : Bool :=
  decide ((t.drop i).take kw.length = kw)

def findFromAux (t kw : List Char) : Nat → Nat → Option Nat
  | _, 0 => none
  | i, fuel + 1 => if occursAtPos t kw i then some i else findFromAux t kw (i + 1) fuel

/-- Python `t.find(kw, start)`: the least `i ≥ start` where `kw` occurs
(`none` models the return value `-1`). -/
def findFrom (t kw : List Char) (start : Nat) : Option Nat :=
  findFromAux t kw start (t.length + 1 - start)

/-- Python `kw in t` (substring containment). -/
def pyIn (t kw : List Char) : Bool := (findFrom t kw 0).isSome

/-- The `while True: index = find(...); start_pos = index + 1` occurrence loop. -/
def collectOccsAux (t kw : List Char) : Nat → Nat → List Nat
  | _, 0 => []
  | start, fuel + 1 =>
    match findFrom t kw start with
    | none => []
    | some i => i :: collectOccsAux t kw (i + 1) fuel

def collectOccs (t kw : List Char) : List Nat :=
  collectOccsAux t kw 0 (t.length + 1)

/-- Python `str.lower()`, modelled character-wise. -/
def lowerStr (t : List Char) : List Char := t.map Char.toLower

def dots : List Char := "...".data

/--
Context extraction for one occurrence (documents.py): window from
`max(0, i - 50)` to `min(n, i + len(kw) + 50)`, stripped, with an ellipsis
prefix when the window starts after 0 and an ellipsis suffix when it ends
before `n`.
-/
def mkContext (text kw : List Char) (i : Nat) : List Char :=
  let ctxStart := i - 50
  let ctxEnd := min text.length (i + kw.length + 50)
  let ctx := pyStrip ((text.take ctxEnd).drop ctxStart)
  (if 0 < ctxStart then dots ++ ctx else ctx) ++ (if ctxEnd < text.length then dots else [])

/-- All context snippets for `kw` in `text`: occurrences are located in the
lowered text, snippets are cut from the original text. -/
def scanContexts (text kw : List Char) : List (List Char) :=
  (collectOccs (lowerStr text) kw).map (mkContext text kw)

/-! ## Chapter update (server.py, `update_chapter`) -/

inductive UpdateError where
  | chapterNotFound
  deriving DecidableEq, Repr

/--
The replacement built for a matched chapter: content is
`f"## {chapter['title']}\n\n{new_content}"` (the heading is rebuilt at
level 2 regardless of the chapter's original level), and the summary is
`new_summary or chapter["summary"]` (Python truthiness: `None` or `""`
falls back to the existing summary).
-/
def mkUpdatedChapter (newContent : List Char) (newSummary : Option (List Char))
    (ch : Chapter) : Chapter :=
  { title := ch.title, level := ch.level,
    content := "## ".data ++ ch.title ++ '\n' :: '\n' :: newContent,
    summary :=
      match newSummary with
      | some sum => if sum = [] then ch.summary else sum
      | none => ch.summary }

/-- The `for chapter in chapters` loop building `updated_chapters`:
every chapter whose title equals the requested title is replaced. -/
def updateChapterList (chapters : List Chapter) (t c : List Char)
    (ns : Option (List Char)) : List Chapter :=
  chapters.map (fun ch => if ch.title = t then mkUpdatedChapter c ns ch else ch)

/--
Body reassembly in `update_chapter`: intro content (anything before the
first chapter, located with `startswith`/`find` on the first chapter's
content) is stripped and kept; each chapter block is stripped and followed
by a blank separator; the whole join is stripped.
-/
def reassembleBody (body : List Char) (chapters updated : List Chapter) : List Char :=
  let introParts : List (List Char) :=
    if (match chapters with
        | ch :: _ => decide (body.take ch.content.length = ch.content)
        | [] => false)
    then []
    else
      let firstPos :=
        match chapters with
        | ch :: _ =>
          match findFrom body ch.content 0 with
          | some i => i
          | none => body.length - 1
        | [] => body.length
      let intro := pyStrip (body.take firstPos)
      if intro = [] then [] else [intro, []]
  let parts := introParts ++ updated.flatMap (fun ch => [pyStrip ch.content, []])
  pyStrip (unlines parts)

def updatedKey : List Char := "updated".data

/--
`update_chapter` (server.py), modelled from the point where the document
has been read and decoded: parse chapters, build the updated chapter list,
fail with `ChapterNotFound` when no title matches (before any metadata
update or write), otherwise set `metadata["updated"] = now` and produce
the reassembled body that is passed to the atomic write.
-/
def update_chapter (m : Metadata) (body t c : List Char)
    (ns : Option (List Char)) (now : List Char) :
    Except UpdateError (Metadata × List Char) :=
  let chapters := parseChapters body
  let updated := updateChapterList chapters t c ns
  if chapters.any (fun ch => ch.title = t) then
    .ok (dictSet m updatedKey (.scalar (.s now)), reassembleBody body chapters updated)
  else .error .chapterNotFound

/-- The on-disk document after an `update_chapter` call: only a successful
update performs a write; the error path returns before `write_document`. -/
def update_chapter_on_file (doc : Metadata × List Char) (t c : List Char)
    (ns : Option (List Char)) (now : List Char) : Metadata × List Char :=
  match update_chapter doc.1 doc.2 t c ns now with
  | .ok d => d
  | .error _ => doc

/-! ## Search engine (documents.py, `search_documents`) -/

/-- One scope's contribution for one keyword: the bucket key it is filed
under, the surfaced chapter title and summary, and the context snippets. -/
structure ScopeHit where
  key : List Char
  chapterField : List Char
  summary : List Char
  contexts : List (List Char)
  deriving DecidableEq, Repr

def docBodyKey : List Char := "_document_body".data
def preChapterKey : List Char := "_pre_chapter".data
def nlMarker : List Char := "\n##".data

/--
The three scan scopes of `search_documents` for one keyword in one
document, in source order: whole body (only when there are no chapters),
each chapter's content, and — when chapters exist — the text before the
first occurrence of `"\n##"` in the body provided that occurrence index
is positive.
-/
def searchKeywordBuckets (body : List Char) (chapters : List Chapter)
    (kw : List Char) : List ScopeHit :=
  let bodyL := lowerStr body
  let part1 : List ScopeHit :=
    if chapters = [] ∧ pyIn bodyL kw then
      let cs := scanContexts body kw
      if cs ≠ [] then [⟨docBodyKey, [], [], cs⟩] else []
    else []
  let part2 : List ScopeHit :=
    chapters.flatMap (fun ch =>
      if pyIn (lowerStr ch.content) kw then
        let cs := scanContexts ch.content kw
        if cs ≠ [] then [⟨ch.title, ch.title, ch.summary, cs⟩] else []
      else [])
  let part3 : List ScopeHit :=
    if chapters ≠ [] ∧ pyIn bodyL kw then
      match findFrom body nlMarker 0 with
      | some i =>
        if 0 < i then
          let pre := body.take i
          if pyIn (lowerStr pre) kw then
            let cs := scanContexts pre kw
            if cs ≠ [] then [⟨preChapterKey, [], [], cs⟩] else []
          else []
        else []
      | none => []
    else []
  part1 ++ part2 ++ part3

/-- Accumulated state of one result bucket (`matching_chapters` entry). -/
structure BucketAcc where
  key : List Char
  chapter : List Char
  summary : List Char
  kwsFound : List (List Char)
  matchCtx : List ((List Char) × List (List Char))
  deriving DecidableEq, Repr

/-- `chapter_data["match_context"][keyword].extend(contexts)` with creation. -/
def extendCtx (ctx : List ((List Char) × List (List Char))) (kw : List Char)
    (cs : List (List Char)) : List ((List Char) × List (List Char)) :=
  if ctx.any (fun p => p.1 = kw) then
    ctx.map (fun p => if p.1 = kw then (p.1, p.2 ++ cs) else p)
  else ctx ++ [(kw, cs)]

/-- File one scope hit into the bucket store: create the bucket on first
contact (fixing its surfaced title and summary), then record the keyword
and append its contexts. -/
def addHit (buckets : List BucketAcc) (kw : List Char) (h : ScopeHit) :
    List BucketAcc :=
  if buckets.any (fun b => b.key = h.key) then
    buckets.map (fun b =>
      if b.key = h.key then
        { b with
          kwsFound := if kw ∈ b.kwsFound then b.kwsFound else b.kwsFound ++ [kw],
          matchCtx := extendCtx b.matchCtx kw h.contexts }
      else b)
  else buckets ++ [⟨h.key, h.chapterField, h.summary, [kw], [(kw, h.contexts)]⟩]

/-- Lexicographic comparison of strings by code point (Python `sorted`). -/
def strLe (a b : List Char) : Bool :=
  match a, b with
  | [], _ => true
  | _ :: _, [] => false
  | x :: xs, y :: ys => if x < y then true else if y < x then false else strLe xs ys

def sortStrs (l : List (List Char)) : List (List Char) := l.mergeSort strLe

/-- All buckets accumulated for one document across all keywords. -/
def docBuckets (body : List Char) (keywords : List (List Char)) : List BucketAcc :=
  let chapters := parseChapters body
  keywords.foldl
    (fun acc kw => (searchKeywordBuckets body chapters kw).foldl (fun a h => addHit a kw h) acc)
    []

/-- A `matching_chapters` record in the final result. -/
structure ChapterMatch where
  chapter : List Char
  summary : List Char
  keywordsFound : List (List Char)
  matchContext : List ((List Char) × List (List Char))
  deriving DecidableEq, Repr

/-- A per-document search result record. -/
structure SearchResult where
  file : List Char
  matchCount : Nat
  metadata : Metadata
  matchingChapters : List ChapterMatch
  deriving DecidableEq, Repr

def bucketToMatch (b : BucketAcc) : ChapterMatch :=
  ⟨b.chapter, b.summary, sortStrs b.kwsFound, b.matchCtx⟩

theorem dropWhile_length_le (p : α → Bool) (l : List α) :
    (l.dropWhile p).length ≤ l.length := by
  induction l with
  | nil => simp
  | cons x xs ih =>
    rw [List.dropWhile]
    cases p x
    · simp
    · simpa using Nat.le_succ_of_le ih

/-- Python `query.split()`: split on whitespace runs, no empty tokens. -/
def pySplit : List Char → List (List Char)
  | [] => []
  | c :: rest =>
    if isWS c then pySplit rest
    else (c :: rest.takeWhile (fun x => ¬ isWS x)) ::
      pySplit (rest.dropWhile (fun x => ¬ isWS x))
termination_by s => s.length
decreasing_by
  · simp
  · exact Nat.lt_succ_of_le (dropWhile_length_le _ _)

/--
`search_documents` (documents.py). The filesystem boundary is modelled as
a directory-existence flag and a list of files, each file either decoded
to `(metadata, body)` or `none` for a file whose read/decode raised (such
files are skipped by the `except: continue`).
-/
def search_documents (dirExists : Bool)
    (files : List ((List Char) × Option (Metadata × List Char)))
    (query : List Char) : List SearchResult :=
  if query = [] then []
  else if dirExists = false then []
  else
    let keywords := (pySplit query).filterMap
      (fun w => if pyStrip w = [] then none else some (lowerStr (pyStrip w)))
    if keywords = [] then []
    else
      files.filterMap (fun f =>
        match f.2 with
        | none => none
        | some (md, body) =>
          let buckets := docBuckets body keywords
          if buckets = [] then none
          else some ⟨f.1, buckets.length, md, buckets.map bucketToMatch⟩)

/-! ## Frontmatter codec

Modelled from the spec: the repository delegates the delimited-region
serialization to the third-party `frontmatter`/`yaml` libraries, whose
code is not under src/. Following §4.1 and §6 of the spec, `Encode`
fails on empty metadata, serializes the metadata into the region between
`---` delimiter lines (plain scalars and sequences only), and concatenates
the region and the body with exactly one blank separating line; `Decode`
inverts this, returning empty metadata and the verbatim content when the
content does not begin with a delimiter. String scalars are serialized in
quoted-and-escaped form (one of the forms the restricted serialization
format admits), which keeps every metadata entry on its own lines. -/

def digitChar (d : Nat) : Char := Char.ofNat (48 + d)

def natToChars (n : Nat) : List Char :=
  if n = 0 then ['0'] else ((Nat.digits 10 n).map digitChar).reverse

def parseNatChars (l : List Char) : Option Nat :=
  if l ≠ [] ∧ l.all Char.isDigit then
    some (Nat.ofDigits 10 (l.reverse.map (fun c => c.toNat - 48)))
  else none

def escChar (c : Char) : List Char :=
  if c = '"' then ['\\', '"']
  else if c = '\\' then ['\\', '\\']
  else if c = '\n' then ['\\', 'n']
  else [c]

def escape : List Char → List Char
  | [] => []
  | c :: r => escChar c ++ escape r

def unescChar (c : Char) : Char := if c = 'n' then '\n' else c

/-- Parse the interior of a quoted scalar up to (and consuming) the final
closing quote, which must end the input. -/
def unescape : List Char → Option (List Char)
  | [] => none
  | c :: r =>
    if c = '"' then (if r = [] then some [] else none)
    else if c = '\\' then
      match r with
      | [] => none
      | c₂ :: r₂ => (unescape r₂).map (fun t => unescChar c₂ :: t)
    else (unescape r).map (c :: ·)

def encodeScalar : YScalar → List Char
  | .s v => '"' :: (escape v ++ ['"'])
  | .num n => natToChars n
  | .b true => "true".data
  | .b false => "false".data
  | .null => "null".data

def decodeScalar (l : List Char) : Option YScalar :=
  if l.headD ' ' = '"' then (unescape l.tail).map .s
  else if l = "true".data then some (.b true)
  else if l = "false".data then some (.b false)
  else if l = "null".data then some .null
  else (parseNatChars l).map .num

/-- The lines serializing one metadata entry: a scalar on one
`key: value` line, a sequence as a `key:` line followed by `- item` lines. -/
def encodeValueLines (k : List Char) : YValue → List (List Char)
  | .scalar v => [k ++ ':' :: ' ' :: encodeScalar v]
  | .seq vs => (k ++ [':']) :: vs.map (fun v => '-' :: ' ' :: encodeScalar v)

def encodeMetaLines (m : Metadata) : List (List Char) :=
  m.flatMap (fun p => encodeValueLines p.1 p.2)

def decodeSeqItems (ls : List (List Char)) : Option (List YScalar) :=
  ls.mapM (fun l => decodeScalar (l.drop 2))

def isItemLine (l : List Char) : Bool := l.take 2 = ['-', ' ']

def notColon (c : Char) : Bool := c ≠ ':'

def decodeMetaLines : List (List Char) → Option Metadata
  | [] => some []
  | line :: rest =>
    let k := line.takeWhile notColon
    if k.length = line.length then none
    else
      let after := line.drop (k.length + 1)
      if after = [] then
        let items := rest.takeWhile isItemLine
        let rest' := rest.drop items.length
        match decodeSeqItems items, decodeMetaLines rest' with
        | some vs, some tail => some ((k, .seq vs) :: tail)
        | _, _ => none
      else
        match after with
        | ' ' :: vchars =>
          match decodeScalar vchars, decodeMetaLines rest with
          | some v, some tail => some ((k, .scalar v) :: tail)
          | _, _ => none
        | _ => none
termination_by ls => ls.length
decreasing_by
  all_goals simp_wf
  all_goals omega

def delimLine : List Char := "---".data

/-- `Encode(metadata, body)`: fails (`MissingMetadata`) on empty metadata. -/
def encodeDocument (m : Metadata) (body : List Char) : Option (List Char) :=
  if m = [] then none
  else some (unlines ((delimLine :: encodeMetaLines m) ++ [delimLine, []] ++ splitLinesChar body))

def findDelimIdx : List (List Char) → Option Nat
  | [] => none
  | l :: rest =>
    if l = delimLine then some 0 else (findDelimIdx rest).map (· + 1)

/-- `Decode(content)`: content not beginning with a delimiter (or with no
closing delimiter) decodes to empty metadata and the verbatim content;
otherwise the region between the delimiter lines is parsed, failing
(`InvalidMetadata`) when it is unparsable, and the body is the text after
the closing delimiter with the single separating blank line removed. -/
def decodeDocument (content : List Char) : Option (Metadata × List Char) :=
  match splitLinesChar content with
  | [] => some ([], content)
  | first :: rest =>
    if first = delimLine then
      match findDelimIdx rest with
      | some j =>
        match decodeMetaLines (rest.take j) with
        | some m =>
          let bodyLines := rest.drop (j + 1)
          let body :=
            if bodyLines.headD ['x'] = [] then unlines bodyLines.tail
            else unlines bodyLines
          some (m, body)
        | none => none
      | none => some ([], content)
    else some ([], content)

/-- Well-formedness of a metadata key in the modelled serialization:
nonempty, and free of the characters the line format reserves. -/
def wfKey (k : List Char) : Prop :=
  k ≠ [] ∧ ':' ∉ k ∧ '\n' ∉ k ∧ k.take 2 ≠ ['-', ' ']

instance wfKey_decidable (k : List Char) : Decidable (wfKey k) :=
  decidable_of_iff (k ≠ [] ∧ ':' ∉ k ∧ '\n' ∉ k ∧ k.take 2 ≠ ['-', ' ']) Iff.rfl

/-! ## Codec round-trip lemmas (C6) -/

theorem digitChar_isDigit (d : Nat) (h : d < 10) : (digitChar d).isDigit = true := by
  interval_cases d <;> decide

theorem digitChar_val (d : Nat) (h : d < 10) : (digitChar d).toNat - 48 = d := by
  interval_cases d <;> decide

theorem natToChars_ne_nil (n : Nat) : natToChars n ≠ [] := by
  rw [natToChars]
  split
  · simp
  · rename_i h0
    simp [List.reverse_eq_nil_iff, Nat.digits_ne_nil_iff_ne_zero.mpr h0]

theorem natToChars_all_digits (n : Nat) : ∀ c ∈ natToChars n, c.isDigit = true := by
  rw [natToChars]
  split
  · intro c hc
    rw [List.mem_singleton] at hc
    subst hc
    decide
  · intro c hc
    rw [List.mem_reverse, List.mem_map] at hc
    obtain ⟨d, hd, hcd⟩ := hc
    subst hcd
    exact digitChar_isDigit d (Nat.digits_lt_base (by norm_num) hd)

theorem parseNatChars_natToChars (n : Nat) : parseNatChars (natToChars n) = some n := by
  have hall : (natToChars n).all Char.isDigit = true := by
    rw [List.all_eq_true]
    exact natToChars_all_digits n
  rw [parseNatChars, if_pos ⟨natToChars_ne_nil n, hall⟩, Option.some_inj]
  rw [natToChars]
  split
  · rename_i h0
    subst h0
    rfl
  · rw [List.reverse_reverse, List.map_map]
    have hmap : (Nat.digits 10 n).map ((fun c => c.toNat - 48) ∘ digitChar) =
        (Nat.digits 10 n).map id := by
      refine List.map_congr_left ?_
      intro d hd
      exact digitChar_val d (Nat.digits_lt_base (by norm_num) hd)
    rw [hmap, List.map_id, Nat.ofDigits_digits]

theorem escape_no_newline (v : List Char) : '\n' ∉ escape v := by
  induction v with
  | nil => simp [escape]
  | cons c r ih =>
    rw [escape]
    intro hmem
    rcases List.mem_append.mp hmem with h | h
    · rw [escChar] at h
      split at h
      · simp at h
      · split at h
        · simp at h
        · split at h
          · simp at h
          · rename_i h₁ h₂ h₃
            rw [List.mem_singleton] at h
            exact h₃ h.symm
    · exact ih h

theorem unescape_escape (v : List Char) : unescape (escape v ++ ['"']) = some v := by
  induction v with
  | nil => rfl
  | cons c r ih =>
    by_cases h₁ : c = '"'
    · subst h₁
      show (unescape (escape r ++ ['"'])).map (fun t => unescChar '"' :: t) = some ('"' :: r)
      rw [ih]
      rfl
    · by_cases h₂ : c = '\\'
      · subst h₂
        show (unescape (escape r ++ ['"'])).map (fun t => unescChar '\\' :: t) = some ('\\' :: r)
        rw [ih]
        rfl
      · by_cases h₃ : c = '\n'
        · subst h₃
          show (unescape (escape r ++ ['"'])).map (fun t => unescChar 'n' :: t) = some ('\n' :: r)
          rw [ih]
          rfl
        · show unescape (escChar c ++ escape r ++ ['"']) = some (c :: r)
          rw [escChar, if_neg h₁, if_neg h₂, if_neg h₃]
          have hstep : unescape (c :: (escape r ++ ['"'])) =
              (unescape (escape r ++ ['"'])).map (fun t => c :: t) := by
            conv_lhs => rw [unescape.eq_def]
            simp [h₁, h₂]
          show unescape (c :: (escape r ++ ['"'])) = some (c :: r)
          rw [hstep, ih]
          rfl

theorem encodeScalar_no_newline (v : YScalar) : '\n' ∉ encodeScalar v := by
  cases v with
  | s w =>
    show '\n' ∉ '"' :: (escape w ++ ['"'])
    intro hmem
    rw [List.mem_cons] at hmem
    rcases hmem with h | h
    · simp at h
    · rcases List.mem_append.mp h with h | h
      · exact escape_no_newline w h
      · simp at h
  | num n =>
    intro hmem
    have := natToChars_all_digits n '\n' hmem
    simp at this
  | b tb => cases tb <;> decide
  | null => decide

theorem decodeScalar_encodeScalar (v : YScalar) : decodeScalar (encodeScalar v) = some v := by
  cases v with
  | s w =>
    show (unescape (escape w ++ ['"'])).map YScalar.s = some (YScalar.s w)
    rw [unescape_escape]
    rfl
  | num n =>
    have hd := natToChars_all_digits n
    have hne := natToChars_ne_nil n
    have hnotq : ¬ ((natToChars n).headD ' ' = '"') := by
      rcases hnc : natToChars n with _ | ⟨c, cs⟩
      · exact absurd hnc hne
      · have hc := hd c (by rw [hnc]; simp)
        show ¬ (c = '"')
        intro hq
        subst hq
        simp at hc
    have hnotlit : ∀ lit : List Char, 't' ∈ lit ∨ 'f' ∈ lit ∨ 'u' ∈ lit →
        natToChars n ≠ lit := by
      intro lit hlit heq
      rcases hlit with h | h | h
      · have := hd 't' (heq ▸ h)
        simp at this
      · have := hd 'f' (heq ▸ h)
        simp at this
      · have := hd 'u' (heq ▸ h)
        simp at this
    show decodeScalar (natToChars n) = _
    rw [decodeScalar, if_neg hnotq,
      if_neg (hnotlit "true".data (Or.inl (by decide))),
      if_neg (hnotlit "false".data (Or.inr (Or.inl (by decide)))),
      if_neg (hnotlit "null".data (Or.inr (Or.inr (by decide)))),
      parseNatChars_natToChars]
    rfl
  | b tb => cases tb <;> rfl
  | null => rfl

/-! ## Generic list helpers -/

theorem takeWhile_of_all {α : Type} (p : α → Bool) (l : List α)
    (h : ∀ c ∈ l, p c = true) : l.takeWhile p = l := by
  induction l with
  | nil => rfl
  | cons c cs ih =>
    rw [List.takeWhile_cons, if_pos (h c (by simp))]
    rw [ih (fun x hx => h x (List.mem_cons_of_mem c hx))]

theorem takeWhile_append_stop {α : Type} (p : α → Bool) (a : List α) (x : α)
    (t : List α) (ha : ∀ c ∈ a, p c = true) (hx : p x = false) :
    (a ++ x :: t).takeWhile p = a := by
  induction a with
  | nil => simp [List.takeWhile_cons, hx]
  | cons c cs ih =>
    rw [List.cons_append, List.takeWhile_cons, if_pos (ha c (by simp))]
    rw [ih (fun y hy => ha y (List.mem_cons_of_mem c hy))]

theorem takeWhile_append_of_all {α : Type} (p : α → Bool) (a b : List α)
    (ha : ∀ x ∈ a, p x = true) : (a ++ b).takeWhile p = a ++ b.takeWhile p := by
  induction a with
  | nil => simp
  | cons c cs ih =>
    rw [List.cons_append, List.takeWhile_cons, if_pos (ha c (by simp))]
    rw [ih (fun y hy => ha y (List.mem_cons_of_mem c hy))]
    rfl

/-! ## Line-level codec lemmas -/

theorem takeWhile_notColon (k t : List Char) (hk : ':' ∉ k) :
    (k ++ ':' :: t).takeWhile notColon = k := by
  refine takeWhile_append_stop notColon k ':' t ?_ (by decide)
  intro c hc
  simp only [notColon, decide_eq_true_eq]
  intro h
  exact hk (h ▸ hc)

theorem isItemLine_key_line (k t : List Char) (hk1 : k ≠ [])
    (hk4 : k.take 2 ≠ ['-', ' ']) : isItemLine (k ++ ':' :: t) = false := by
  rcases k with _ | ⟨c1, k'⟩
  · exact absurd rfl hk1
  · rcases k' with _ | ⟨c2, k''⟩
    · show isItemLine (c1 :: ':' :: t) = false
      rw [isItemLine]
      simp
    · show isItemLine (c1 :: c2 :: (k'' ++ ':' :: t)) = false
      have h2 : (c1 :: c2 :: (k'' ++ ':' :: t)).take 2 = [c1, c2] := rfl
      have h3 : (c1 :: c2 :: k'').take 2 = [c1, c2] := rfl
      rw [isItemLine, h2, decide_eq_false_iff_not]
      intro h
      exact hk4 (by rw [h3]; exact h)

theorem decodeSeqItems_encode (vs : List YScalar) :
    decodeSeqItems (vs.map (fun v => '-' :: ' ' :: encodeScalar v)) = some vs := by
  induction vs with
  | nil => rfl
  | cons v rest ih =>
    simp only [decodeSeqItems, List.map_cons, List.mapM_cons] at *
    rw [show (('-' :: ' ' :: encodeScalar v).drop 2) = encodeScalar v from rfl,
      decodeScalar_encodeScalar, ih]
    rfl

theorem decodeMetaLines_cons_scalar (k : List Char) (sc : YScalar)
    (rest : List (List Char)) (hkcolon : ':' ∉ k) :
    decodeMetaLines ((k ++ ':' :: ' ' :: encodeScalar sc) :: rest) =
      match decodeScalar (encodeScalar sc), decodeMetaLines rest with
      | some v, some tail => some ((k, .scalar v) :: tail)
      | _, _ => none := by
  have htw : (k ++ ':' :: ' ' :: encodeScalar sc).takeWhile notColon = k :=
    takeWhile_notColon k _ hkcolon
  have hlen : ¬ (k.length = (k ++ ':' :: ' ' :: encodeScalar sc).length) := by
    rw [List.length_append]
    simp
  have hdrop : (k ++ ':' :: ' ' :: encodeScalar sc).drop (k.length + 1) =
      ' ' :: encodeScalar sc := by
    simp
  simp only [decodeMetaLines, htw, hlen, hdrop, if_false, if_neg hlen]
  rw [if_neg (by simp)]

theorem decodeMetaLines_cons_seq (k : List Char) (vs : List YScalar)
    (tl : List (List Char)) (hkcolon : ':' ∉ k)
    (htl : tl.takeWhile isItemLine = []) :
    decodeMetaLines ((k ++ [':']) ::
        (vs.map (fun v => '-' :: ' ' :: encodeScalar v) ++ tl)) =
      match decodeSeqItems (vs.map (fun v => '-' :: ' ' :: encodeScalar v)),
          decodeMetaLines tl with
      | some items, some tail => some ((k, .seq items) :: tail)
      | _, _ => none := by
  have htw : (k ++ [':']).takeWhile notColon = k := takeWhile_notColon k [] hkcolon
  have hlen : ¬ (k.length = (k ++ [':']).length) := by
    rw [List.length_append]
    simp
  have hdrop : (k ++ [':']).drop (k.length + 1) = [] := by
    simp
  have hitems : ((vs.map (fun v => '-' :: ' ' :: encodeScalar v)) ++ tl).takeWhile isItemLine =
      vs.map (fun v => '-' :: ' ' :: encodeScalar v) := by
    rw [takeWhile_append_of_all isItemLine _ tl ?_, htl, List.append_nil]
    intro x hx
    rw [List.mem_map] at hx
    obtain ⟨v, _, hv⟩ := hx
    subst hv
    rfl
  have hdroplen : ((vs.map (fun v => '-' :: ' ' :: encodeScalar v)) ++ tl).drop
      (vs.map (fun v => '-' :: ' ' :: encodeScalar v)).length = tl :=
    List.drop_left _ _
  simp only [decodeMetaLines, htw, hdrop, if_neg hlen, if_pos rfl, hitems, hdroplen]
  rw [if_pos trivial]

theorem takeWhile_isItemLine_encodeMetaLines (ps : Metadata)
    (hwf : ∀ p ∈ ps, wfKey p.1) :
    (encodeMetaLines ps).takeWhile isItemLine = [] := by
  cases ps with
  | nil => rfl
  | cons q qs =>
    obtain ⟨k', v'⟩ := q
    obtain ⟨hk1, _, _, hk4⟩ := hwf (k', v') (by simp)
    cases v' with
    | scalar sc =>
      show ((k' ++ ':' :: ' ' :: encodeScalar sc) :: encodeMetaLines qs).takeWhile
        isItemLine = []
      rw [List.takeWhile_cons, if_neg (by simp [isItemLine_key_line k' _ hk1 hk4])]
    | seq vs =>
      show ((k' ++ ':' :: []) ::
        (vs.map (fun v => '-' :: ' ' :: encodeScalar v) ++ encodeMetaLines qs)).takeWhile
        isItemLine = []
      rw [List.takeWhile_cons, if_neg (by simp [isItemLine_key_line k' _ hk1 hk4])]

theorem decodeMetaLines_encodeMetaLines (m : Metadata)
    (hwf : ∀ p ∈ m, wfKey p.1) :
    decodeMetaLines (encodeMetaLines m) = some m := by
  induction m with
  | nil => simp only [encodeMetaLines, List.flatMap_nil, decodeMetaLines]
  | cons p ps ih =>
    obtain ⟨k, v⟩ := p
    obtain ⟨hk1, hk2, hk3, hk4⟩ := hwf (k, v) (by simp)
    have hih := ih (fun q hq => hwf q (List.mem_cons_of_mem _ hq))
    cases v with
    | scalar sc =>
      show decodeMetaLines ((k ++ ':' :: ' ' :: encodeScalar sc) :: encodeMetaLines ps) = _
      rw [decodeMetaLines_cons_scalar k sc _ hk2, decodeScalar_encodeScalar, hih]
    | seq vs =>
      show decodeMetaLines ((k ++ [':']) ::
        (vs.map (fun v => '-' :: ' ' :: encodeScalar v) ++ encodeMetaLines ps)) = _
      rw [decodeMetaLines_cons_seq k vs _ hk2
          (takeWhile_isItemLine_encodeMetaLines ps
            (fun q hq => hwf q (List.mem_cons_of_mem _ hq))),
        decodeSeqItems_encode, hih]

theorem encodeValueLines_line_props (k : List Char) (v : YValue) (l : List Char)
    (hk : wfKey k) (hl : l ∈ encodeValueLines k v) :
    '\n' ∉ l ∧ l ≠ delimLine := by
  obtain ⟨hk1, hk2, hk3, hk4⟩ := hk
  have hkeyline : ∀ t : List Char, '\n' ∉ t → ('\n' ∉ k ++ ':' :: t ∧ k ++ ':' :: t ≠ delimLine) := by
    intro t ht
    constructor
    · intro hmem
      rcases List.mem_append.mp hmem with h | h
      · exact hk3 h
      · rw [List.mem_cons] at h
        rcases h with h | h
        · simp at h
        · exact ht h
    · intro heq
      have hcolon : ':' ∈ k ++ ':' :: t := List.mem_append.mpr (Or.inr (by simp))
      rw [heq] at hcolon
      revert hcolon
      decide
  have hitem : ∀ sc : YScalar,
      ('\n' ∉ '-' :: ' ' :: encodeScalar sc ∧ '-' :: ' ' :: encodeScalar sc ≠ delimLine) := by
    intro sc
    constructor
    · intro hmem
      rw [List.mem_cons] at hmem
      rcases hmem with h | h
      · simp at h
      · rw [List.mem_cons] at h
        rcases h with h | h
        · simp at h
        · exact encodeScalar_no_newline sc h
    · intro heq
      have h2 := congrArg (fun x => x.drop 1) heq
      simp only [List.drop] at h2
      have h3 := congrArg List.head? h2
      simp [delimLine] at h3
  cases v with
  | scalar sc =>
    rw [show encodeValueLines k (.scalar sc) = [k ++ ':' :: ' ' :: encodeScalar sc] from rfl,
      List.mem_singleton] at hl
    subst hl
    exact hkeyline (' ' :: encodeScalar sc) (by
      intro hmem
      rw [List.mem_cons] at hmem
      rcases hmem with h | h
      · simp at h
      · exact encodeScalar_no_newline sc h)
  | seq vs =>
    rw [show encodeValueLines k (.seq vs) =
      (k ++ [':']) :: vs.map (fun v => '-' :: ' ' :: encodeScalar v) from rfl,
      List.mem_cons] at hl
    rcases hl with h | h
    · subst h
      exact hkeyline [] (by simp)
    · rw [List.mem_map] at h
      obtain ⟨sc, _, hsc⟩ := h
      subst hsc
      exact hitem sc

theorem encodeMetaLines_line_props (m : Metadata) (hwf : ∀ p ∈ m, wfKey p.1)
    (l : List Char) (hl : l ∈ encodeMetaLines m) :
    '\n' ∉ l ∧ l ≠ delimLine := by
  rw [encodeMetaLines, List.mem_flatMap] at hl
  obtain ⟨p, hp, hlp⟩ := hl
  exact encodeValueLines_line_props p.1 p.2 l (hwf p hp) hlp

theorem findDelimIdx_append (a b : List (List Char))
    (ha : ∀ l ∈ a, l ≠ delimLine) :
    findDelimIdx (a ++ delimLine :: b) = some a.length := by
  induction a with
  | nil =>
    show findDelimIdx (delimLine :: b) = some 0
    rw [findDelimIdx, if_pos rfl]
  | cons x xs ih =>
    rw [List.cons_append, findDelimIdx, if_neg (ha x (by simp))]
    rw [ih (fun y hy => ha y (List.mem_cons_of_mem x hy))]
    rfl

/--
C6: for every non-empty metadata mapping of the modelled value types
(string keys free of the reserved characters, scalar or sequence values)
and every body text, decoding the encoding returns the identical metadata
and the identical body.
-/
theorem claim_C6_codec_roundtrip (m : Metadata) (body : List Char)
    (hm : m ≠ []) (hwf : ∀ p ∈ m, wfKey p.1) :
    ∃ e, encodeDocument m body = some e ∧ decodeDocument e = some (m, body) := by
  refine ⟨_, by rw [encodeDocument, if_neg hm], ?_⟩
  have hlines : ∀ l ∈ (delimLine :: encodeMetaLines m) ++ [delimLine, []] ++
      splitLinesChar body, '\n' ∉ l := by
    intro l hl
    rcases List.mem_append.mp hl with h | h
    · rcases List.mem_append.mp h with h₁ | h₁
      · rw [List.mem_cons] at h₁
        rcases h₁ with h₂ | h₂
        · subst h₂
          decide
        · exact (encodeMetaLines_line_props m hwf l h₂).1
      · rw [List.mem_cons] at h₁
        rcases h₁ with h₂ | h₂
        · subst h₂
          decide
        · rw [List.mem_singleton] at h₂
          subst h₂
          simp
    · exact mem_splitLinesChar_no_newline body l h
  have hsplit : splitLinesChar (unlines ((delimLine :: encodeMetaLines m) ++
      [delimLine, []] ++ splitLinesChar body)) =
      (delimLine :: encodeMetaLines m) ++ [delimLine, []] ++ splitLinesChar body :=
    splitLinesChar_unlines _ (by simp) hlines
  rw [decodeDocument.eq_def, hsplit]
  have hshape : (delimLine :: encodeMetaLines m) ++ [delimLine, []] ++ splitLinesChar body =
      delimLine :: (encodeMetaLines m ++ delimLine :: ([] :: splitLinesChar body)) := by
    simp
  rw [hshape]
  show (if delimLine = delimLine then _ else _) = _
  rw [if_pos rfl,
    findDelimIdx_append (encodeMetaLines m) ([] :: splitLinesChar body)
      (fun l hl => (encodeMetaLines_line_props m hwf l hl).2)]
  show (match decodeMetaLines ((encodeMetaLines m ++
      delimLine :: ([] :: splitLinesChar body)).take (encodeMetaLines m).length) with
    | some md => _
    | none => none) = _
  rw [List.take_left, decodeMetaLines_encodeMetaLines m hwf]
  show some (m,
    if ((encodeMetaLines m ++ delimLine :: ([] :: splitLinesChar body)).drop
        ((encodeMetaLines m).length + 1)).headD ['x'] = [] then
      unlines ((encodeMetaLines m ++ delimLine :: ([] :: splitLinesChar body)).drop
        ((encodeMetaLines m).length + 1)).tail
    else _) = _
  have hdrop : (encodeMetaLines m ++ delimLine :: ([] :: splitLinesChar body)).drop
      ((encodeMetaLines m).length + 1) = [] :: splitLinesChar body := by
    simp
  rw [hdrop]
  rw [if_pos (show ([] :: splitLinesChar body).headD ['x'] = ([] : List Char) from rfl)]
  show some (m, unlines (splitLinesChar body)) = _
  rw [unlines_splitLinesChar]

/-- Witness for C6 at a concrete metadata mapping exercising every
value type (string with characters needing escaping, sequence, number,
boolean, null) and a multi-line body containing a heading. -/
theorem claim_C6_codec_roundtrip_witness :
    (([(("title".data : List Char), YValue.scalar (.s "My \"Doc\"\nLine".data)),
       ("keywords".data, YValue.seq [.s "a".data, .s "b".data]),
       ("count".data, YValue.scalar (.num 42)),
       ("flag".data, YValue.scalar (.b true)),
       ("extra".data, YValue.scalar .null)] : Metadata) ≠ []) ∧
    (∀ p ∈ ([(("title".data : List Char), YValue.scalar (.s "My \"Doc\"\nLine".data)),
       ("keywords".data, YValue.seq [.s "a".data, .s "b".data]),
       ("count".data, YValue.scalar (.num 42)),
       ("flag".data, YValue.scalar (.b true)),
       ("extra".data, YValue.scalar .null)] : Metadata), wfKey p.1) ∧
    (∃ e, encodeDocument
        [(("title".data : List Char), YValue.scalar (.s "My \"Doc\"\nLine".data)),
         ("keywords".data, YValue.seq [.s "a".data, .s "b".data]),
         ("count".data, YValue.scalar (.num 42)),
         ("flag".data, YValue.scalar (.b true)),
         ("extra".data, YValue.scalar .null)] "Hello\n\n## Ch\ntext".data = some e ∧
      decodeDocument e = some
        ([(("title".data : List Char), YValue.scalar (.s "My \"Doc\"\nLine".data)),
          ("keywords".data, YValue.seq [.s "a".data, .s "b".data]),
          ("count".data, YValue.scalar (.num 42)),
          ("flag".data, YValue.scalar (.b true)),
          ("extra".data, YValue.scalar .null)], "Hello\n\n## Ch\ntext".data)) :=
  ⟨by decide, by decide,
    claim_C6_codec_roundtrip _ "Hello\n\n## Ch\ntext".data (by decide) (by decide)⟩

/-! ## Segmenter structure: every chapter comes from a flush, and the
chapter contents partition the lines from the first header onward. -/

theorem chaptersLoop_ne_nil (ls : List (List Char)) :
    ∀ hline lv t acc, chaptersLoop hline lv t acc ls ≠ [] := by
  induction ls with
  | nil => intro hline lv t acc; simp [chaptersLoop]
  | cons l rest ih =>
    intro hline lv t acc
    simp only [chaptersLoop]
    rcases h : headerMatch l with _ | ⟨lv', t'⟩
    · exact ih hline lv t (acc ++ [l])
    · simp

theorem chaptersLoop_shape (ls : List (List Char)) :
    ∀ hline lv t acc,
      (∀ l ∈ ls, '\n' ∉ l) → '\n' ∉ hline → (∀ l ∈ acc, '\n' ∉ l) →
      headerMatch hline = some (lv, t) →
      ∀ ch ∈ chaptersLoop hline lv t acc ls,
        ∃ hl acc₂, '\n' ∉ hl ∧ (∀ l ∈ acc₂, '\n' ∉ l) ∧
          headerMatch hl = some (ch.level, ch.title) ∧
          ch.summary = summarize acc₂ ∧ ch.content = unlines (hl :: acc₂) := by
  induction ls with
  | nil =>
    intro hline lv t acc _ hh hacc hm ch hch
    simp only [chaptersLoop, List.mem_singleton] at hch
    subst hch
    exact ⟨hline, acc, hh, hacc, hm, rfl, rfl⟩
  | cons l rest ih =>
    intro hline lv t acc hls hh hacc hm ch hch
    have hl : '\n' ∉ l := hls l (by simp)
    have hrest : ∀ x ∈ rest, '\n' ∉ x := fun x hx => hls x (List.mem_cons_of_mem l hx)
    simp only [chaptersLoop] at hch
    rcases hhm : headerMatch l with _ | ⟨lv', t'⟩
    · rw [hhm] at hch
      refine ih hline lv t (acc ++ [l]) hrest hh ?_ hm ch hch
      intro x hx
      rcases List.mem_append.mp hx with h₁ | h₁
      · exact hacc x h₁
      · rw [List.mem_singleton] at h₁
        exact h₁ ▸ hl
    · rw [hhm] at hch
      rw [List.mem_cons] at hch
      rcases hch with h₁ | h₁
      · subst h₁
        exact ⟨hline, acc, hh, hacc, hm, rfl, rfl⟩
      · exact ih l lv' t' [] hrest hl (by simp) hhm ch h₁

theorem chaptersLoop_join (ls : List (List Char)) :
    ∀ hline lv t acc,
      unlines ((chaptersLoop hline lv t acc ls).map Chapter.content) =
        unlines ((hline :: acc) ++ ls) := by
  induction ls with
  | nil => intro hline lv t acc; simp [chaptersLoop, flushChapter, unlines]
  | cons l rest ih =>
    intro hline lv t acc
    simp only [chaptersLoop]
    rcases hhm : headerMatch l with _ | ⟨lv', t'⟩
    · rw [ih hline lv t (acc ++ [l])]
      congr 1
      simp
    · rcases hmap : (chaptersLoop l lv' t' [] rest).map Chapter.content with _ | ⟨m, ms⟩
      · exact absurd (List.map_eq_nil_iff.mp hmap) (chaptersLoop_ne_nil rest l lv' t' [])
      · show unlines ((flushChapter hline lv t acc).content ::
          (chaptersLoop l lv' t' [] rest).map Chapter.content) = _
        rw [hmap]
        have step : unlines ((flushChapter hline lv t acc).content :: m :: ms) =
          (flushChapter hline lv t acc).content ++ '\n' :: unlines (m :: ms) := by
          simp [unlines]
        rw [step, ← hmap, ih l lv' t' []]
        have hflush : (flushChapter hline lv t acc).content = unlines (hline :: acc) := rfl
        have hjoin := unlines_append (hline :: acc) (l :: rest) (by simp) (by simp)
        rw [hflush, show ([l] ++ rest) = l :: rest from rfl, ← hjoin]

theorem chaptersStart_cases (ls : List (List Char)) :
    (ls.dropWhile (fun l => (headerMatch l).isNone) = [] ∧ chaptersStart ls = []) ∨
    (∃ h t lv ti, ls.dropWhile (fun l => (headerMatch l).isNone) = h :: t ∧
      headerMatch h = some (lv, ti) ∧ chaptersStart ls = chaptersLoop h lv ti [] t) := by
  induction ls with
  | nil => left; exact ⟨rfl, rfl⟩
  | cons l rest ih =>
    rcases hhm : headerMatch l with _ | ⟨lv, ti⟩
    · rcases ih with ⟨h₁, h₂⟩ | ⟨h, t, lv, ti, h₁, h₂, h₃⟩
      · left
        constructor
        · rw [List.dropWhile_cons, if_pos (by simp [hhm])]
          exact h₁
        · simp only [chaptersStart, hhm]
          exact h₂
      · right
        refine ⟨h, t, lv, ti, ?_, h₂, ?_⟩
        · rw [List.dropWhile_cons, if_pos (by simp [hhm])]
          exact h₁
        · simp only [chaptersStart, hhm]
          exact h₃
    · right
      refine ⟨l, rest, lv, ti, ?_, hhm, ?_⟩
      · rw [List.dropWhile_cons, if_neg (by simp [hhm])]
      · simp only [chaptersStart, hhm]

theorem parseChapters_shape (body : List Char) :
    ∀ ch ∈ parseChapters body,
      ∃ hl acc₂, '\n' ∉ hl ∧ (∀ l ∈ acc₂, '\n' ∉ l) ∧
        headerMatch hl = some (ch.level, ch.title) ∧
        ch.summary = summarize acc₂ ∧ ch.content = unlines (hl :: acc₂) := by
  intro ch hch
  rw [parseChapters] at hch
  split at hch
  · simp at hch
  · rcases chaptersStart_cases (splitLinesChar body) with ⟨_, h₂⟩ | ⟨h, t, lv, ti, h₁, h₂, h₃⟩
    · rw [h₂] at hch
      simp at hch
    · rw [h₃] at hch
      have hsub : ∀ l ∈ h :: t, '\n' ∉ l := by
        intro l hl
        have : l ∈ splitLinesChar body := by
          have := List.dropWhile_sublist (l := splitLinesChar body)
            (p := fun l => (headerMatch l).isNone)
          exact this.mem (h₁ ▸ hl)
        exact mem_splitLinesChar_no_newline body l this
      exact chaptersLoop_shape t h lv ti []
        (fun x hx => hsub x (List.mem_cons_of_mem h hx))
        (hsub h (by simp)) (by simp) h₂ ch hch

theorem takeWhile_unlines_head (hl : List Char) (acc : List (List Char))
    (hh : '\n' ∉ hl) :
    (unlines (hl :: acc)).takeWhile (fun c => c ≠ '\n') = hl := by
  cases acc with
  | nil =>
    exact takeWhile_of_all _ hl (fun c hc => by
      simp only [decide_eq_true_eq]
      intro h
      exact hh (h ▸ hc))
  | cons a as =>
    show (hl ++ '\n' :: unlines (a :: as)).takeWhile (fun c => c ≠ '\n') = hl
    exact takeWhile_append_stop _ hl '\n' _ (fun c hc => by
      simp only [decide_eq_true_eq]
      intro h
      exact hh (h ▸ hc)) (by simp)

/--
C10: segmentation is a lossless partition of the text from the first
qualifying heading onward — each returned chapter's content begins with
its own heading line (a line matching the header pattern with that
chapter's level and title), and joining all chapter contents in order
with a single newline reproduces exactly the suffix of the body starting
at the first qualifying heading line.
-/
theorem claim_C10_segmentation_partition (body : List Char)
    (hne : parseChapters body ≠ []) :
    (∀ ch ∈ parseChapters body,
      headerMatch (ch.content.takeWhile (fun c => c ≠ '\n')) = some (ch.level, ch.title)) ∧
    unlines ((parseChapters body).map Chapter.content) =
      unlines ((splitLinesChar body).dropWhile (fun l => (headerMatch l).isNone)) ∧
    ∃ pre, body = pre ++ unlines ((parseChapters body).map Chapter.content) := by
  refine ⟨?_, ?_, ?_⟩
  · intro ch hch
    obtain ⟨hl, acc₂, hhl, _, hm, _, hcont⟩ := parseChapters_shape body ch hch
    rw [hcont, takeWhile_unlines_head hl acc₂ hhl]
    exact hm
  · rw [parseChapters] at hne ⊢
    split at hne
    · exact absurd rfl hne
    · rename_i hguard
      rw [if_neg hguard]
      rcases chaptersStart_cases (splitLinesChar body) with ⟨_, h₂⟩ | ⟨h, t, lv, ti, h₁, h₂, h₃⟩
      · exact absurd h₂ hne
      · rw [h₃, h₁, chaptersLoop_join]
        rfl
  · rw [parseChapters] at hne ⊢
    split at hne
    · exact absurd rfl hne
    · rename_i hguard
      rw [if_neg hguard]
      rcases chaptersStart_cases (splitLinesChar body) with ⟨_, h₂⟩ | ⟨h, t, lv, ti, h₁, h₂, h₃⟩
      · exact absurd h₂ hne
      · rw [h₃, chaptersLoop_join]
        have hbody := unlines_splitLinesChar body
        have hsplit : ((splitLinesChar body).takeWhile (fun l => (headerMatch l).isNone)) ++
            ((splitLinesChar body).dropWhile (fun l => (headerMatch l).isNone)) =
            splitLinesChar body :=
          List.takeWhile_append_dropWhile (fun l => (headerMatch l).isNone) (splitLinesChar body)
        rcases htw : (splitLinesChar body).takeWhile (fun l => (headerMatch l).isNone)
          with _ | ⟨x, xs⟩
        · refine ⟨[], ?_⟩
          rw [List.nil_append]
          conv_lhs => rw [← hbody, ← hsplit, htw, h₁]
          simp
        · refine ⟨unlines (x :: xs) ++ ['\n'], ?_⟩
          conv_lhs => rw [← hbody, ← hsplit, htw, h₁]
          rw [unlines_append (x :: xs) (h :: t) (by simp) (by simp)]
          simp

/-- Witness for C10 at a concrete document with intro text and two chapters. -/
theorem claim_C10_segmentation_partition_witness :
    parseChapters "intro\n## A\nx\n### B\ny".data ≠ [] ∧
    ((∀ ch ∈ parseChapters "intro\n## A\nx\n### B\ny".data,
      headerMatch (ch.content.takeWhile (fun c => c ≠ '\n')) = some (ch.level, ch.title)) ∧
    unlines ((parseChapters "intro\n## A\nx\n### B\ny".data).map Chapter.content) =
      unlines ((splitLinesChar "intro\n## A\nx\n### B\ny".data).dropWhile
        (fun l => (headerMatch l).isNone)) ∧
    ∃ pre, "intro\n## A\nx\n### B\ny".data =
      pre ++ unlines ((parseChapters "intro\n## A\nx\n### B\ny".data).map Chapter.content)) :=
  ⟨by decide, claim_C10_segmentation_partition "intro\n## A\nx\n### B\ny".data (by decide)⟩

/--
The claim's description of summary extraction, as its own definition:
accumulate trimmed non-blank lines in order, stopping at the first blank
line encountered after at least one non-blank line has been accumulated,
or once the accumulated space-joined text exceeds 100 characters (checked
after appending each line), or when the lines are exhausted.
-/
def summarySpec : List (List Char) → List (List Char) → List (List Char)
  | [], acc => acc
  | cl :: rest, acc =>
    if pyStrip cl = [] then
      if acc ≠ [] then acc else summarySpec rest acc
    else
      let acc' := acc ++ [pyStrip cl]
      if 100 < (joinSpaces acc').length then acc'
      else summarySpec rest acc'

theorem summaryAux_eq_spec (ls : List (List Char)) :
    ∀ acc, summaryAux ls acc = summarySpec ls acc := by
  induction ls with
  | nil => intro acc; rfl
  | cons cl rest ih =>
    intro acc
    by_cases hb : pyStrip cl = []
    · show (if pyStrip cl = [] then if acc ≠ [] then acc else summaryAux rest acc
          else _) =
        (if pyStrip cl = [] then if acc ≠ [] then acc else summarySpec rest acc
          else _)
      rw [if_pos hb, if_pos hb]
      split
      · rfl
      · exact ih acc
    · rcases rest with _ | ⟨nxt, rest₂⟩
      · show (if pyStrip cl = [] then _
            else if False = True then acc ++ [pyStrip cl]
            else if 100 < (joinSpaces (acc ++ [pyStrip cl])).length then acc ++ [pyStrip cl]
            else summaryAux [] (acc ++ [pyStrip cl])) =
          (if pyStrip cl = [] then _
            else if 100 < (joinSpaces (acc ++ [pyStrip cl])).length then acc ++ [pyStrip cl]
            else summarySpec [] (acc ++ [pyStrip cl]))
        rw [if_neg hb, if_neg hb, if_neg (by simp)]
        split
        · rfl
        · rfl
      · show (if pyStrip cl = [] then _
            else if (pyStrip nxt).isEmpty = true then acc ++ [pyStrip cl]
            else if 100 < (joinSpaces (acc ++ [pyStrip cl])).length then acc ++ [pyStrip cl]
            else summaryAux (nxt :: rest₂) (acc ++ [pyStrip cl])) =
          (if pyStrip cl = [] then _
            else if 100 < (joinSpaces (acc ++ [pyStrip cl])).length then acc ++ [pyStrip cl]
            else summarySpec (nxt :: rest₂) (acc ++ [pyStrip cl]))
        rw [if_neg hb, if_neg hb]
        by_cases hnxt : pyStrip nxt = []
        · rw [if_pos (by simp [hnxt])]
          have hspec : summarySpec (nxt :: rest₂) (acc ++ [pyStrip cl]) =
              acc ++ [pyStrip cl] := by
            show (if pyStrip nxt = [] then
                if (acc ++ [pyStrip cl]) ≠ [] then acc ++ [pyStrip cl]
                else summarySpec rest₂ (acc ++ [pyStrip cl])
              else _) = acc ++ [pyStrip cl]
            rw [if_pos hnxt, if_pos (by simp)]
          rw [hspec]
          split
          · rfl
          · rfl
        · rw [if_neg (by simp [hnxt])]
          split
          · rfl
          · exact ih (acc ++ [pyStrip cl])

/--
C4: for every chapter produced by segmentation, the stored summary equals
the claim's formula — the space-joined sequence of trimmed non-blank
content lines (heading line excluded) accumulated in order, stopping at
the first blank line after at least one accumulated line, or once the
space-joined text exceeds 100 characters (checked after appending, so no
line is truncated), or when the lines run out.
-/
theorem claim_C4_summary_stopping_rule (content : List Char) :
    ∀ ch ∈ parseChapters content,
      ch.summary = joinSpaces (summarySpec ((splitLinesChar ch.content).drop 1) []) := by
  intro ch hch
  obtain ⟨hl, acc₂, hhl, hacc, _, hsum, hcont⟩ := parseChapters_shape content ch hch
  rw [hcont, splitLinesChar_unlines (hl :: acc₂) (by simp) ?_]
  · rw [hsum, summarize, summaryAux_eq_spec]
    rfl
  · intro l hmem
    rw [List.mem_cons] at hmem
    rcases hmem with h | h
    · exact h ▸ hhl
    · exact hacc l h

/-- Witness for C4 at a concrete document. -/
theorem claim_C4_summary_stopping_rule_witness :
    (⟨"A".data, 2, "line1 line2".data, "## A\nline1\nline2\n\nafter".data⟩ : Chapter) ∈
      parseChapters "## A\nline1\nline2\n\nafter".data ∧
    (⟨"A".data, 2, "line1 line2".data, "## A\nline1\nline2\n\nafter".data⟩ : Chapter).summary =
      joinSpaces (summarySpec ((splitLinesChar
        (⟨"A".data, 2, "line1 line2".data, "## A\nline1\nline2\n\nafter".data⟩ : Chapter).content).drop 1) []) :=
  ⟨by decide, claim_C4_summary_stopping_rule "## A\nline1\nline2\n\nafter".data _ (by decide)⟩

/-! ## Occurrence scan characterization (for C5) -/

theorem occursAtPos_lt (t kw : List Char) (i : Nat) (hkw : kw ≠ [])
    (h : occursAtPos t kw i = true) : i < t.length := by
  rw [occursAtPos, decide_eq_true_eq] at h
  have hlen := congrArg List.length h
  rw [List.length_take, List.length_drop] at hlen
  have hpos : 0 < kw.length := List.length_pos.mpr hkw
  omega

theorem findFromAux_some (t kw : List Char) (fuel : Nat) :
    ∀ i j, findFromAux t kw i fuel = some j →
      i ≤ j ∧ occursAtPos t kw j = true ∧
        ∀ m, i ≤ m → m < j → occursAtPos t kw m = false := by
  induction fuel with
  | zero => intro i j h; exact absurd h (by simp [findFromAux])
  | succ f ihf =>
    intro i j h
    rw [findFromAux] at h
    split at h
    · rename_i hocc
      rw [Option.some_inj] at h
      subst h
      exact ⟨le_refl _, hocc, fun m h₁ h₂ => absurd (lt_of_le_of_lt h₁ h₂) (lt_irrefl _)⟩
    · rename_i hocc
      obtain ⟨h₁, h₂, h₃⟩ := ihf (i + 1) j h
      refine ⟨by omega, h₂, ?_⟩
      intro m hm₁ hm₂
      by_cases hmi : m = i
      · subst hmi
        exact Bool.eq_false_iff.mpr hocc
      · exact h₃ m (by omega) hm₂

theorem findFromAux_none (t kw : List Char) (fuel : Nat) :
    ∀ i, findFromAux t kw i fuel = none →
      ∀ j, i ≤ j → j < i + fuel → occursAtPos t kw j = false := by
  induction fuel with
  | zero => intro i _ j h₁ h₂; omega
  | succ f ihf =>
    intro i h j h₁ h₂
    rw [findFromAux] at h
    split at h
    · exact absurd h (by simp)
    · rename_i hocc
      by_cases hji : j = i
      · subst hji
        exact Bool.eq_false_iff.mpr hocc
      · exact ihf (i + 1) h j (by omega) (by omega)

theorem findFrom_none (t kw : List Char) (start : Nat) (hkw : kw ≠ [])
    (h : findFrom t kw start = none) :
    ∀ j, start ≤ j → occursAtPos t kw j = false := by
  intro j hj
  by_cases hjn : j < t.length
  · exact findFromAux_none t kw _ start h j hj (by omega)
  · cases hocc : occursAtPos t kw j
    · rfl
    · exact absurd (occursAtPos_lt t kw j hkw hocc) hjn

theorem collectOccsAux_eq_filter (t kw : List Char) (hkw : kw ≠ []) :
    ∀ fuel start, t.length + 1 - start ≤ fuel →
      collectOccsAux t kw start fuel =
        (List.range' start (t.length - start)).filter (occursAtPos t kw) := by
  intro fuel
  induction fuel with
  | zero =>
    intro start hf
    rw [show t.length - start = 0 by omega]
    rfl
  | succ f ihf =>
    intro start hf
    rw [collectOccsAux]
    cases hff : findFrom t kw start with
    | none =>
      show ([] : List Nat) = _
      have hno := findFrom_none t kw start hkw hff
      symm
      rw [List.filter_eq_nil_iff]
      intro a ha
      rw [List.mem_range'_1] at ha
      simp [hno a ha.1]
    | some i =>
      show i :: collectOccsAux t kw (i + 1) f = _
      obtain ⟨h₁, h₂, h₃⟩ := findFromAux_some t kw _ start i hff
      have hin : i < t.length := occursAtPos_lt t kw i hkw h₂
      rw [ihf (i + 1) (by omega)]
      have hdecomp : List.range' start (t.length - start) =
          List.range' start (i - start) ++ List.range' i (t.length - i) := by
        have hr := List.range'_append start (i - start) (t.length - i) 1
        simp only [one_mul] at hr
        rw [show start + (i - start) = i by omega] at hr
        rw [show t.length - i + (i - start) = t.length - start by omega] at hr
        exact hr.symm
      rw [hdecomp, List.filter_append]
      have hfirst : (List.range' start (i - start)).filter (occursAtPos t kw) = [] := by
        rw [List.filter_eq_nil_iff]
        intro a ha
        rw [List.mem_range'_1] at ha
        simp [h₃ a ha.1 (by omega)]
      rw [hfirst, List.nil_append]
      have hsecond : List.range' i (t.length - i) =
          i :: List.range' (i + 1) (t.length - i - 1) := by
        rw [show t.length - i = (t.length - i - 1) + 1 by omega]
        rfl
      rw [hsecond, List.filter_cons, if_pos (by simp [h₂]),
        show t.length - (i + 1) = t.length - i - 1 by omega]

theorem collectOccs_eq_filter (t kw : List Char) (hkw : kw ≠ []) :
    collectOccs t kw = (List.range t.length).filter (occursAtPos t kw) := by
  rw [collectOccs, collectOccsAux_eq_filter t kw hkw _ 0 (by omega), List.range_eq_range']
  rfl

theorem length_lowerStr (t : List Char) : (lowerStr t).length = t.length := by
  simp [lowerStr]

/--
C5: the emitted context list is exactly one snippet per keyword occurrence
in the (lowered) scanned text — overlapping occurrences included, since
the scan resumes at the found index plus one — and each snippet is the
substring from `max(0, i - 50)` to `min(n, i + k + 50)` of the scanned
text, whitespace-trimmed, with a `"..."` prefix exactly when the window
start is positive and a `"..."` suffix exactly when the window end is
short of the text length.
-/
theorem claim_C5_occurrences_and_snippets (text kw : List Char) (hkw : kw ≠ []) :
    scanContexts text kw =
      ((List.range text.length).filter (occursAtPos (lowerStr text) kw)).map
        (fun i =>
          (if 0 < i - 50 then dots else []) ++
            pyStrip ((text.take (min text.length (i + kw.length + 50))).drop (i - 50)) ++
          (if min text.length (i + kw.length + 50) < text.length then dots else [])) := by
  rw [scanContexts, collectOccs_eq_filter _ kw hkw, length_lowerStr]
  refine List.map_congr_left ?_
  intro i _
  rw [mkContext]
  by_cases h₁ : 0 < i - 50
  · rw [if_pos h₁, if_pos h₁, List.append_assoc]
  · rw [if_neg h₁, if_neg h₁, List.nil_append]

/-- Witness for C5 on a concrete text with overlapping occurrences. -/
theorem claim_C5_occurrences_and_snippets_witness :
    "aa".data ≠ [] ∧
    scanContexts "AaAa".data "aa".data =
      ((List.range ("AaAa".data).length).filter (occursAtPos (lowerStr "AaAa".data) "aa".data)).map
        (fun i =>
          (if 0 < i - 50 then dots else []) ++
            pyStrip (("AaAa".data.take (min "AaAa".data.length (i + "aa".data.length + 50))).drop (i - 50)) ++
          (if min "AaAa".data.length (i + "aa".data.length + 50) < "AaAa".data.length then dots else [])) :=
  ⟨by decide, claim_C5_occurrences_and_snippets "AaAa".data "aa".data (by decide)⟩

/-! ## Update-chapter claims -/

/--
C7: when no chapter of the document bears the requested title,
`update_chapter` fails with the chapter-not-found error, and — since the
error return precedes the metadata update and the `write_document` call —
the on-disk document is left unmodified.
-/
theorem claim_C7_not_found_no_write (m : Metadata) (body t c : List Char)
    (ns : Option (List Char)) (now : List Char)
    (h : ∀ ch ∈ parseChapters body, ch.title ≠ t) :
    update_chapter m body t c ns now = .error .chapterNotFound ∧
    update_chapter_on_file (m, body) t c ns now = (m, body) := by
  have hany : (parseChapters body).any (fun ch => ch.title = t) = false := by
    rw [List.any_eq_false]
    intro ch hch
    simp [h ch hch]
  have hupd : update_chapter m body t c ns now = .error .chapterNotFound := by
    rw [update_chapter]
    simp [hany]
  refine ⟨hupd, ?_⟩
  rw [update_chapter_on_file, hupd]

/-- Witness for C7 at a concrete document and a missing title. -/
theorem claim_C7_not_found_no_write_witness :
    (∀ ch ∈ parseChapters "## A\nx".data, ch.title ≠ "B".data) ∧
    (update_chapter [("title".data, .scalar (.s "T".data))] "## A\nx".data "B".data
        "new".data none "NOW".data = .error .chapterNotFound ∧
      update_chapter_on_file ([("title".data, .scalar (.s "T".data))], "## A\nx".data)
        "B".data "new".data none "NOW".data =
        ([("title".data, .scalar (.s "T".data))], "## A\nx".data)) :=
  ⟨by decide,
    claim_C7_not_found_no_write [("title".data, .scalar (.s "T".data))] "## A\nx".data
      "B".data "new".data none "NOW".data (by decide)⟩

theorem find?_map_keep (g : (List Char × YValue) → (List Char × YValue))
    (m : Metadata) (k k' : List Char) (hne : k' ≠ k)
    (hg : ∀ p : List Char × YValue, g p = if p.1 = k then (k, (g p).2) else p) :
    (m.map g).find? (fun p => p.1 = k') = m.find? (fun p => p.1 = k') := by
  have hkk : ¬ (k = k') := fun h => hne h.symm
  induction m with
  | nil => rfl
  | cons p ps ih =>
    rw [List.map_cons, List.find?_cons, List.find?_cons]
    by_cases hp : p.1 = k
    · have h₁ : (g p).1 = k := by rw [hg p, if_pos hp]
      have h₂ : (decide ((g p).1 = k') = false) := by simp [h₁, hkk]
      have h₃ : (decide (p.1 = k') = false) := by simp [hp, hkk]
      rw [h₂, h₃]
      exact ih
    · have h₁ : g p = p := by rw [hg p, if_neg hp]
      rw [h₁]
      cases hd : decide (p.1 = k')
      · exact ih
      · rfl

/-- Frame property of Python dict assignment: keys other than the
assigned one keep their values. -/
theorem dictLookup_dictSet_ne (m : Metadata) (k k' : List Char) (v : YValue)
    (hne : k' ≠ k) : dictLookup (dictSet m k v) k' = dictLookup m k' := by
  have hkk : ¬ (k = k') := fun h => hne h.symm
  rw [dictSet]
  split
  · rw [dictLookup, dictLookup]
    rw [find?_map_keep (fun p => if p.1 = k then (k, v) else p) m k k' hne ?_]
    intro p
    by_cases hp : p.1 = k
    · simp [hp]
    · simp [hp]
  · rw [dictLookup, dictLookup, List.find?_append]
    have h₀ : List.find? (fun p => decide (p.1 = k')) [(k, v)] = none := by
      simp [hkk]
    rw [h₀]
    simp

/--
C8 counterexample: a successful `update_chapter` of chapter "B" changes
the re-derived content of the untouched chapter "A" (chapters are a
recomputed view over the body, and reassembly strips each chapter block
and inserts a blank separator line): "## A\nsecret" becomes
"## A\nsecret\n".
-/
theorem claim_C8_counterexample :
    update_chapter [] "## A\nsecret\n## B\ny".data "B".data "new".data none "NOW".data =
      .ok ([(updatedKey, .scalar (.s "NOW".data))], "## A\nsecret\n\n## B\n\nnew".data) ∧
    (parseChapters "## A\nsecret\n## B\ny".data).map Chapter.content =
      ["## A\nsecret".data, "## B\ny".data] ∧
    (parseChapters "## A\nsecret\n\n## B\n\nnew".data).map Chapter.content =
      ["## A\nsecret\n".data, "## B\n\nnew".data] ∧
    "## A\nsecret\n".data ≠ "## A\nsecret".data :=
  ⟨by rfl, by rfl, by rfl, by decide⟩

/--
C8 as amended: a successful `update_chapter` leaves every metadata field
other than `updated` unchanged, and the updated chapter list it rebuilds
the body from preserves every non-matching chapter exactly (the persisted
body is the reassembly of the stripped chapter blocks, so a non-matching
chapter's re-derived content is preserved only up to the trailing-blank
normalization of reassembly).
-/
theorem claim_C8_amended_frame (m : Metadata) (body t c : List Char)
    (ns : Option (List Char)) (now : List Char) (res : Metadata × List Char)
    (h : update_chapter m body t c ns now = .ok res) :
    (∀ k, k ≠ updatedKey → dictLookup res.1 k = dictLookup m k) ∧
    res.2 = reassembleBody body (parseChapters body)
      (updateChapterList (parseChapters body) t c ns) ∧
    (∀ (i : Nat) (ch : Chapter), (parseChapters body)[i]? = some ch → ch.title ≠ t →
      (updateChapterList (parseChapters body) t c ns)[i]? = some ch) := by
  simp only [update_chapter] at h
  split at h
  · rw [Except.ok.injEq] at h
    subst h
    refine ⟨?_, rfl, ?_⟩
    · intro k hk
      exact dictLookup_dictSet_ne m updatedKey k _ hk
    · intro i ch hch hne
      simp only [updateChapterList, List.getElem?_map, hch]
      simp [hne]
  · exact absurd h (by simp)

/-- Witness for the amended C8 at a concrete successful update. -/
theorem claim_C8_amended_frame_witness :
    update_chapter [("title".data, .scalar (.s "T".data))] "## A\nx\n\n## B\ny".data
        "B".data "new".data none "NOW".data =
      .ok ([("title".data, .scalar (.s "T".data)), (updatedKey, .scalar (.s "NOW".data))],
        "## A\nx\n\n## B\n\nnew".data) ∧
    ((∀ k, k ≠ updatedKey →
        dictLookup ([("title".data, .scalar (.s "T".data)),
          (updatedKey, .scalar (.s "NOW".data))] : Metadata) k =
        dictLookup [("title".data, .scalar (.s "T".data))] k) ∧
      "## A\nx\n\n## B\n\nnew".data = reassembleBody "## A\nx\n\n## B\ny".data
        (parseChapters "## A\nx\n\n## B\ny".data)
        (updateChapterList (parseChapters "## A\nx\n\n## B\ny".data) "B".data "new".data none) ∧
      (∀ (i : Nat) (ch : Chapter), (parseChapters "## A\nx\n\n## B\ny".data)[i]? = some ch →
        ch.title ≠ "B".data →
        (updateChapterList (parseChapters "## A\nx\n\n## B\ny".data) "B".data "new".data none)[i]? =
          some ch)) := by
  have h : update_chapter [("title".data, .scalar (.s "T".data))] "## A\nx\n\n## B\ny".data
      "B".data "new".data none "NOW".data =
      .ok ([("title".data, .scalar (.s "T".data)), (updatedKey, .scalar (.s "NOW".data))],
        "## A\nx\n\n## B\n\nnew".data) := by rfl
  exact ⟨h, claim_C8_amended_frame [("title".data, .scalar (.s "T".data))]
    "## A\nx\n\n## B\ny".data "B".data "new".data none "NOW".data _ h⟩

/--
C1 counterexample: on a document with two chapters titled "A",
`update_chapter` replaces both of them (the source loop has no
first-match-only guard), so the later duplicate does not keep its
original content "## A\ny".
-/
theorem claim_C1_counterexample :
    update_chapter [] "## A\nx\n## A\ny".data "A".data "new".data none "NOW".data =
      .ok ([(updatedKey, .scalar (.s "NOW".data))], "## A\n\nnew\n\n## A\n\nnew".data) ∧
    (parseChapters "## A\nx\n## A\ny".data).map Chapter.content =
      ["## A\nx".data, "## A\ny".data] ∧
    (updateChapterList (parseChapters "## A\nx\n## A\ny".data) "A".data "new".data none).map
        Chapter.content =
      ["## A\n\nnew".data, "## A\n\nnew".data] ∧
    (parseChapters "## A\n\nnew\n\n## A\n\nnew".data).map Chapter.content =
      ["## A\n\nnew\n".data, "## A\n\nnew".data] :=
  ⟨by rfl, by rfl, by rfl, by rfl⟩

/--
C1 as amended: `update_chapter` with a duplicated title replaces every
chapter whose title equals the requested title, not only the first; the
body written back is the reassembly of the resulting chapter list, in
which non-matching chapters are passed through unchanged and every
matching chapter is rebuilt from the new content.
-/
theorem claim_C1_amended_replaces_every_match (m : Metadata) (body t c : List Char)
    (ns : Option (List Char)) (now : List Char) (res : Metadata × List Char)
    (h : update_chapter m body t c ns now = .ok res) :
    res.2 = reassembleBody body (parseChapters body)
      (updateChapterList (parseChapters body) t c ns) ∧
    (∀ (i : Nat) (ch : Chapter), (parseChapters body)[i]? = some ch →
      (updateChapterList (parseChapters body) t c ns)[i]? =
        some (if ch.title = t then mkUpdatedChapter c ns ch else ch)) := by
  simp only [update_chapter] at h
  split at h
  · rw [Except.ok.injEq] at h
    subst h
    refine ⟨rfl, ?_⟩
    intro i ch hch
    simp only [updateChapterList, List.getElem?_map, hch]
    rfl
  · exact absurd h (by simp)

/-- Witness for the amended C1 at the duplicated-title document. -/
theorem claim_C1_amended_replaces_every_match_witness :
    update_chapter [] "## A\nx\n## A\ny".data "A".data "new".data none "NOW".data =
      .ok ([(updatedKey, .scalar (.s "NOW".data))], "## A\n\nnew\n\n## A\n\nnew".data) ∧
    (([(updatedKey, YValue.scalar (.s "NOW".data))], "## A\n\nnew\n\n## A\n\nnew".data) :
        Metadata × List Char).2 =
      reassembleBody "## A\nx\n## A\ny".data (parseChapters "## A\nx\n## A\ny".data)
        (updateChapterList (parseChapters "## A\nx\n## A\ny".data) "A".data "new".data none) ∧
    (∀ (i : Nat) (ch : Chapter), (parseChapters "## A\nx\n## A\ny".data)[i]? = some ch →
      (updateChapterList (parseChapters "## A\nx\n## A\ny".data) "A".data "new".data none)[i]? =
        some (if ch.title = "A".data then mkUpdatedChapter "new".data none ch else ch)) := by
  have h : update_chapter [] "## A\nx\n## A\ny".data "A".data "new".data none "NOW".data =
      .ok ([(updatedKey, .scalar (.s "NOW".data))], "## A\n\nnew\n\n## A\n\nnew".data) := by rfl
  have h₂ := claim_C1_amended_replaces_every_match [] "## A\nx\n## A\ny".data "A".data
    "new".data none "NOW".data _ h
  exact ⟨h, h₂.1, h₂.2⟩

/--
C3 counterexample: updating the level-3 chapter "### Deep" rebuilds its
heading as "## Deep" — the replacement content is a level-2 heading line
regardless of the chapter's original heading level, so the claim's
"original heading-marker level preserved" fails.
-/
theorem claim_C3_counterexample :
    update_chapter [] "### Deep\nx".data "Deep".data "new".data none "NOW".data =
      .ok ([(updatedKey, .scalar (.s "NOW".data))], "## Deep\n\nnew".data) ∧
    (parseChapters "### Deep\nx".data).map (fun ch => (ch.level, ch.content)) =
      [(3, "### Deep\nx".data)] ∧
    "## Deep\n\nnew".data ≠ "### Deep".data ++ '\n' :: '\n' :: "new".data :=
  ⟨by rfl, by rfl, by decide⟩

/--
C3 as amended: for every matched chapter, `update_chapter` replaces its
content with a rebuilt level-2 heading line `"## " + title` followed by a
blank line followed by the supplied new content, regardless of the
chapter's original heading-marker level.
-/
theorem claim_C3_amended_level2_heading (m : Metadata) (body t c : List Char)
    (ns : Option (List Char)) (now : List Char) (res : Metadata × List Char)
    (_h : update_chapter m body t c ns now = .ok res) :
    ∀ (i : Nat) (ch : Chapter), (parseChapters body)[i]? = some ch → ch.title = t →
      ∃ ch₂ : Chapter,
        (updateChapterList (parseChapters body) t c ns)[i]? = some ch₂ ∧
        ch₂.content = "## ".data ++ ch.title ++ '\n' :: '\n' :: c ∧
        ch₂.level = ch.level ∧ ch₂.title = ch.title := by
  intro i ch hch heq
  refine ⟨mkUpdatedChapter c ns ch, ?_, rfl, rfl, rfl⟩
  simp only [updateChapterList, List.getElem?_map, hch]
  simp [heq]

/-- Witness for the amended C3 at the level-3 chapter document. -/
theorem claim_C3_amended_level2_heading_witness :
    update_chapter [] "### Deep\nx".data "Deep".data "new".data none "NOW".data =
      .ok ([(updatedKey, .scalar (.s "NOW".data))], "## Deep\n\nnew".data) ∧
    (∀ (i : Nat) (ch : Chapter), (parseChapters "### Deep\nx".data)[i]? = some ch →
      ch.title = "Deep".data →
      ∃ ch₂ : Chapter,
        (updateChapterList (parseChapters "### Deep\nx".data) "Deep".data "new".data none)[i]? =
          some ch₂ ∧
        ch₂.content = "## ".data ++ ch.title ++ '\n' :: '\n' :: "new".data ∧
        ch₂.level = ch.level ∧ ch₂.title = ch.title) := by
  have h : update_chapter [] "### Deep\nx".data "Deep".data "new".data none "NOW".data =
      .ok ([(updatedKey, .scalar (.s "NOW".data))], "## Deep\n\nnew".data) := by rfl
  exact ⟨h, claim_C3_amended_level2_heading [] "### Deep\nx".data "Deep".data "new".data
    none "NOW".data _ h⟩

/-! ## Search scope claims -/

theorem mem_searchKeywordBuckets (body : List Char) (chapters : List Chapter)
    (kw : List Char) (hit : ScopeHit)
    (hmem : hit ∈ searchKeywordBuckets body chapters kw) :
    (chapters = [] ∧ hit = ⟨docBodyKey, [], [], scanContexts body kw⟩) ∨
    (∃ ch ∈ chapters, hit = ⟨ch.title, ch.title, ch.summary, scanContexts ch.content kw⟩) ∨
    (chapters ≠ [] ∧ ∃ i, findFrom body nlMarker 0 = some i ∧ 0 < i ∧
      hit = ⟨preChapterKey, [], [], scanContexts (body.take i) kw⟩) := by
  simp only [searchKeywordBuckets] at hmem
  rw [List.mem_append, List.mem_append] at hmem
  rcases hmem with (h₁ | h₂) | h₃
  · left
    split at h₁
    · rename_i hc
      split at h₁
      · rw [List.mem_singleton] at h₁
        exact ⟨hc.1, h₁⟩
      · simp at h₁
    · simp at h₁
  · right; left
    rw [List.mem_flatMap] at h₂
    obtain ⟨ch, hch, hin⟩ := h₂
    refine ⟨ch, hch, ?_⟩
    split at hin
    · split at hin
      · rw [List.mem_singleton] at hin
        exact hin
      · simp at hin
    · simp at hin
  · right; right
    split at h₃
    · rename_i hc
      split at h₃
      · rename_i i hf
        split at h₃
        · rename_i hpos
          split at h₃
          · split at h₃
            · rw [List.mem_singleton] at h₃
              exact ⟨hc.1, i, hf, hpos, h₃⟩
            · simp at h₃
          · simp at h₃
        · simp at h₃
      · simp at h₃
    · simp at h₃

/--
C2 counterexample: for the document "## A\nsecretword here\n## B\nend"
(whose body starts with a level-2 heading), the keyword "secretword" is
filed under the reserved pre-chapter bucket even though it occurs only
inside chapter "A" — the pre-chapter scope scans `body[:body.find("\n##")]`,
which here is exactly chapter "A"'s content, not the (empty) text before
the first level-2 heading marker. So chapter text is filed under the
pre-chapter bucket.
-/
theorem claim_C2_counterexample :
    searchKeywordBuckets "## A\nsecretword here\n## B\nend".data
        (parseChapters "## A\nsecretword here\n## B\nend".data) "secretword".data =
      [⟨"A".data, "A".data, "secretword here".data, ["## A\nsecretword here".data]⟩,
       ⟨preChapterKey, [], [], ["## A\nsecretword here".data]⟩] ∧
    (parseChapters "## A\nsecretword here\n## B\nend".data).map Chapter.content =
      ["## A\nsecretword here".data, "## B\nend".data] :=
  ⟨by rfl, by rfl⟩

/--
C2 as amended: the whole-body scope (reserved document-body bucket, empty
surfaced chapter title) is used only when the document has no chapters;
when the document has chapters, the pre-chapter scope scans exactly
`body[:i]` where `i` is the index of the first occurrence of a newline
followed by "##" in the body, and fires only when that occurrence exists
at a positive index — a region that can include chapter text whenever the
body begins with a heading line. (The hypotheses exclude documents whose
chapter titles collide with the two reserved bucket keys.)
-/
theorem claim_C2_amended_scope_selection (body : List Char) (chapters : List Chapter)
    (kw : List Char)
    (hk1 : ∀ ch ∈ chapters, ch.title ≠ docBodyKey)
    (hk2 : ∀ ch ∈ chapters, ch.title ≠ preChapterKey) :
    (∀ hit ∈ searchKeywordBuckets body chapters kw, hit.key = docBodyKey →
      chapters = [] ∧ hit.chapterField = [] ∧ hit.contexts = scanContexts body kw) ∧
    (∀ hit ∈ searchKeywordBuckets body chapters kw, hit.key = preChapterKey →
      chapters ≠ [] ∧ hit.chapterField = [] ∧
      ∃ i, findFrom body nlMarker 0 = some i ∧ 0 < i ∧
        hit.contexts = scanContexts (body.take i) kw) := by
  constructor
  · intro hit hmem hkey
    rcases mem_searchKeywordBuckets body chapters kw hit hmem with
      ⟨hc, he⟩ | ⟨ch, hch, he⟩ | ⟨_, i, _, _, he⟩
    · subst he
      exact ⟨hc, rfl, rfl⟩
    · subst he
      exact absurd hkey (hk1 ch hch)
    · subst he
      have hne : preChapterKey ≠ docBodyKey := by decide
      exact absurd hkey hne
  · intro hit hmem hkey
    rcases mem_searchKeywordBuckets body chapters kw hit hmem with
      ⟨_, he⟩ | ⟨ch, hch, he⟩ | ⟨hc, i, hf, hpos, he⟩
    · subst he
      have hne : docBodyKey ≠ preChapterKey := by decide
      exact absurd hkey hne
    · subst he
      exact absurd hkey (hk2 ch hch)
    · subst he
      exact ⟨hc, rfl, i, hf, hpos, rfl⟩

/-- Witness for the amended C2 at a concrete document with both a chapter
hit and a pre-chapter hit. -/
theorem claim_C2_amended_scope_selection_witness :
    (∀ ch ∈ parseChapters "pre kw text\n## A\nkw in chapter".data, ch.title ≠ docBodyKey) ∧
    (∀ ch ∈ parseChapters "pre kw text\n## A\nkw in chapter".data, ch.title ≠ preChapterKey) ∧
    ((∀ hit ∈ searchKeywordBuckets "pre kw text\n## A\nkw in chapter".data
        (parseChapters "pre kw text\n## A\nkw in chapter".data) "kw".data,
        hit.key = docBodyKey →
        parseChapters "pre kw text\n## A\nkw in chapter".data = [] ∧
        hit.chapterField = [] ∧
        hit.contexts = scanContexts "pre kw text\n## A\nkw in chapter".data "kw".data) ∧
      (∀ hit ∈ searchKeywordBuckets "pre kw text\n## A\nkw in chapter".data
        (parseChapters "pre kw text\n## A\nkw in chapter".data) "kw".data,
        hit.key = preChapterKey →
        parseChapters "pre kw text\n## A\nkw in chapter".data ≠ [] ∧
        hit.chapterField = [] ∧
        ∃ i, findFrom "pre kw text\n## A\nkw in chapter".data nlMarker 0 = some i ∧ 0 < i ∧
          hit.contexts =
            scanContexts ("pre kw text\n## A\nkw in chapter".data.take i) "kw".data)) :=
  ⟨by decide, by decide,
    claim_C2_amended_scope_selection "pre kw text\n## A\nkw in chapter".data
      (parseChapters "pre kw text\n## A\nkw in chapter".data) "kw".data
      (by decide) (by decide)⟩

/-! ## Empty-query / missing-directory claim -/

theorem pyStrip_eq_nil_all_ws (q : List Char) (h : pyStrip q = []) :
    ∀ c ∈ q, isWS c = true := by
  rw [pyStrip] at h
  rw [List.reverse_eq_nil_iff] at h
  have h₂ : ∀ c ∈ (q.dropWhile isWS).reverse, isWS c = true :=
    List.dropWhile_eq_nil_iff.mp h
  have h₃ : ∀ c ∈ q.dropWhile isWS, isWS c = true := by
    intro c hc
    exact h₂ c (List.mem_reverse.mpr hc)
  intro c hc
  rw [← List.takeWhile_append_dropWhile (p := isWS) (l := q), List.mem_append] at hc
  rcases hc with hc | hc
  · exact List.mem_takeWhile_imp hc
  · exact h₃ c hc

theorem pySplit_all_ws (q : List Char) (h : ∀ c ∈ q, isWS c = true) :
    pySplit q = [] := by
  induction q with
  | nil => simp [pySplit]
  | cons c rest ih =>
    rw [pySplit, if_pos (h c (by simp))]
    exact ih (fun x hx => h x (List.mem_cons_of_mem c hx))

/--
C9: a query that is empty or whitespace-only after trimming yields an
empty result list, and any query against a missing corpus directory
yields an empty result list; neither case is an error.
-/
theorem claim_C9_trivial_query_or_missing_dir (dirExists : Bool)
    (files : List ((List Char) × Option (Metadata × List Char))) (query : List Char)
    (h : pyStrip query = [] ∨ dirExists = false) :
    search_documents dirExists files query = [] := by
  rw [search_documents]
  by_cases hq : query = []
  · rw [if_pos hq]
  · rw [if_neg hq]
    by_cases hd : dirExists = false
    · rw [if_pos hd]
    · rw [if_neg hd]
      rcases h with h | h
      · have hsplit : pySplit query = [] :=
          pySplit_all_ws query (pyStrip_eq_nil_all_ws query h)
        simp [hsplit]
      · exact absurd h hd

/-- Witness for C9: a whitespace-only query over a non-empty corpus. -/
theorem claim_C9_trivial_query_or_missing_dir_witness :
    (pyStrip " \t ".data = [] ∨ true = false) ∧
    search_documents true
      [("f.md".data, some ([("title".data, .scalar (.s "T".data))], "## One\nhello".data))]
      " \t ".data = [] :=
  ⟨Or.inl (by decide),
    claim_C9_trivial_query_or_missing_dir true
      [("f.md".data, some ([("title".data, .scalar (.s "T".data))], "## One\nhello".data))]
      " \t ".data (Or.inl (by decide))⟩

end KnowledgeMCP
